import Mathlib

/-!
Verification of the result-aggregation engine of the youtube-reply-bot-api
repository (src/index.ts and scripts/mergeAndSortScores.ts).

Embedding conventions:
* JavaScript numbers that carry scores are modelled as rationals (`Rat`);
  item ids and counts are integers in every observed use and are modelled
  as `Int`.
* A JavaScript `Map` (and a plain object used as a string-keyed record) is
  modelled as an association list `List (String × β)` with first-match
  lookup (`mapGet`) and JS `Map.set` semantics (`mapSet`): setting an
  existing key updates the value in place, keeping the key's original
  insertion position; setting a fresh key appends it at the end.
  `Map.values()` enumerates values in key-insertion order, i.e.
  `List.map Prod.snd`.
* A stored batch file is modelled as `Option AnalysisFile`: `none` stands
  for a file whose contents fail to parse as JSON (the catch branch of the
  per-file loop in `mergeAndSortResults`).
* `Array.prototype.sort` with the comparator
  `(a, b) => b.finalScore - a.finalScore` is a stable descending sort by
  `finalScore` (ECMAScript mandates sort stability); it is embedded as the
  stable insertion sort `sortCommentsByScore`.
* Wall-clock fields that are freshly generated on each run
  (`metadata.generatedAt`, output filenames) are outside the embedding;
  the spec's properties are all stated "timestamps aside".
-/

/-- The `Comment` interface of src/index.ts: id, time-ago, content, likes,
replies, and the optional pinned-item flag `isTopComments`. -/
structure Comment where
  id : Int
  t : String
  c : String
  l : String
  r : String
  isTopComments : Option Bool
deriving DecidableEq, Repr

/-- The `CommentScore` interface: a single `finalScore` number. -/
structure CommentScore where
  finalScore : Rat
deriving DecidableEq, Repr

/-- The `AnalysisFile` interface of src/index.ts: one stored batch record.
`analysisResults` is the id-keyed score map (a JSON object, modelled as an
association list keyed by the stringified id). -/
structure AnalysisFile where
  timestamp : String
  inputComments : List Comment
  systemMessage : String
  bestCommentsCount : Int
  analysisResults : List (String × CommentScore)
deriving DecidableEq, Repr

/-- The `MergedComment` interface: a `Comment` extended with its resolved
`finalScore` and the `timestamp` of the batch it came from. -/
structure MergedComment where
  id : Int
  t : String
  c : String
  l : String
  r : String
  isTopComments : Option Bool
  finalScore : Rat
  analysisTimestamp : String
deriving DecidableEq, Repr

/-- First-match lookup in a string-keyed association list; models property
access `obj[key]` on a JS object and `Map.get`. -/
def mapGet {β : Type} (k : String) : List (String × β) → Option β
  | [] => none
  | (k', v) :: rest => if k' = k then some v else mapGet k rest

/-- JS `Map.set` / `obj[key] = v`: update the first entry with the given
key in place (keeping its insertion position), or append a new entry. -/
def mapSet {β : Type} (k : String) (v : β) : List (String × β) → List (String × β)
  | [] => [(k, v)]
  | (k', v') :: rest => if k' = k then (k', v) :: rest else (k', v') :: mapSet k v rest

/-- The object built by the spread `{...comment, finalScore, analysisTimestamp}`
in `mergeCommentsWithScores` / the merge loop of `mergeAndSortResults`. -/
def mkMergedComment (comment : Comment) (scoreData : CommentScore) (timestamp : String) :
    MergedComment :=
  { id := comment.id
    t := comment.t
    c := comment.c
    l := comment.l
    r := comment.r
    isTopComments := comment.isTopComments
    finalScore := scoreData.finalScore
    analysisTimestamp := timestamp }

/-- `mergeCommentsWithScores` of scripts/mergeAndSortScores.ts, identical to
the inner per-file loop of `mergeAndSortResults` in src/index.ts: look up each
input comment's score by stringified id; emit a merged comment when a score
is present, silently skip the comment otherwise. -/
def mergeCommentsWithScores (analysisFile : AnalysisFile) : List MergedComment :=
  analysisFile.inputComments.filterMap fun comment =>
    (mapGet (toString comment.id) analysisFile.analysisResults).map fun scoreData =>
      mkMergedComment comment scoreData analysisFile.timestamp

/-- One step of the dedup loop of `mergeAndSortResults` (src/index.ts
lines 184-189): if the content key is absent, or the new comment's score is
strictly higher than the stored one, store the new comment under its content. -/
def dedupStep (uniqueComments : List (String × MergedComment)) (comment : MergedComment) :
    List (String × MergedComment) :=
  match mapGet comment.c uniqueComments with
  | none => mapSet comment.c comment uniqueComments
  | some existingComment =>
      if existingComment.finalScore < comment.finalScore then
        mapSet comment.c comment uniqueComments
      else uniqueComments

/-- The dedup phase of `mergeAndSortResults`: fold all merged comments into
the `uniqueComments` map, then take `Array.from(uniqueComments.values())`. -/
def dedupByContent (allMergedComments : List MergedComment) : List MergedComment :=
  (allMergedComments.foldl dedupStep []).map Prod.snd

/-- Insertion step of the stable descending sort by `finalScore`. -/
def insertByScore (x : MergedComment) : List MergedComment → List MergedComment
  | [] => [x]
  | y :: ys => if y.finalScore ≤ x.finalScore then x :: y :: ys else y :: insertByScore x ys

/-- `sortCommentsByScore` of scripts/mergeAndSortScores.ts and the
`.sort((a, b) => b.finalScore - a.finalScore)` call of src/index.ts: the
stable descending sort by `finalScore`. -/
def sortCommentsByScore : List MergedComment → List MergedComment
  | [] => []
  | x :: xs => insertByScore x (sortCommentsByScore xs)

/-- The output object written by `mergeAndSortResults` (metadata plus the
ranked comment list), minus the wall-clock `generatedAt` field. -/
structure MergeOutput where
  totalComments : Nat
  processedFiles : Nat
  highestScore : Rat
  lowestScore : Rat
  comments : List MergedComment
deriving DecidableEq, Repr

/-- All merged comments accumulated by the per-file loop of
`mergeAndSortResults`: malformed files (`none`) are skipped by the catch
branch, the rest contribute their scored comments in file order. -/
def allMergedOf (analysisFiles : List (Option AnalysisFile)) : List MergedComment :=
  (analysisFiles.filterMap id).flatMap mergeCommentsWithScores

/-- `mergeAndSortResults` of src/index.ts: no-op (`none`) when the store
lists no files or no scored comments survive; otherwise dedup by content,
sort descending by score, and emit the output object.  `processedFiles`
counts only the files that parsed successfully. -/
def mergeAndSortResults (analysisFiles : List (Option AnalysisFile)) : Option MergeOutput :=
  if analysisFiles.length = 0 then none
  else
    let allMergedComments := allMergedOf analysisFiles
    if allMergedComments.length = 0 then none
    else
      let sortedComments := sortCommentsByScore (dedupByContent allMergedComments)
      some
        { totalComments := sortedComments.length
          processedFiles := (analysisFiles.filterMap id).length
          highestScore := (sortedComments.head?.map MergedComment.finalScore).getD 0
          lowestScore := (sortedComments.getLast?.map MergedComment.finalScore).getD 0
          comments := sortedComments }

/-- Sanity check: the worked example of spec section 8.  Batch A has
content "X" at score 40 and "Y" at score 90, batch B has "X" at score 70;
the merge keeps "Y" at 90 then "X" at 70. -/
example :
    (mergeAndSortResults
      [some { timestamp := "tA"
              inputComments :=
                [{ id := 1, t := "1", c := "X", l := "0", r := "0", isTopComments := none },
                 { id := 2, t := "1", c := "Y", l := "0", r := "0", isTopComments := none }]
              systemMessage := "m"
              bestCommentsCount := 2
              analysisResults := [("1", ⟨40⟩), ("2", ⟨90⟩)] },
       some { timestamp := "tB"
              inputComments :=
                [{ id := 5, t := "1", c := "X", l := "0", r := "0", isTopComments := none }]
              systemMessage := "m"
              bestCommentsCount := 2
              analysisResults := [("5", ⟨70⟩)] }]).map
      (fun out => out.comments.map (fun m => (m.c, m.finalScore))) =
    some [("Y", 90), ("X", 70)] := by decide

/-! ### Semantics of the dedup fold

The dedup loop keyed by content is characterised by `bestOf`: the running
"keep the strictly better comment" choice over the comments of one content
class, in iteration order. -/

/-- One comparison step of the dedup choice: a fresh candidate replaces the
stored one exactly when its score is strictly higher. -/
def bestStep (o : Option MergedComment) (y : MergedComment) : Option MergedComment :=
  match o with
  | none => some y
  | some existingComment =>
      if existingComment.finalScore < y.finalScore then some y else some existingComment

/-- The comment the dedup loop keeps out of one list of same-content
comments, in iteration order. -/
def bestOf (ys : List MergedComment) : Option MergedComment :=
  ys.foldl bestStep none

theorem mapGet_mapSet_self {β : Type} (k : String) (v : β) (m : List (String × β)) :
    mapGet k (mapSet k v m) = some v := by
  induction m with
  | nil => simp [mapGet, mapSet]
  | cons p rest ih =>
    obtain ⟨k', v'⟩ := p
    by_cases h : k' = k
    · simp [mapSet, mapGet, h]
    · simp [mapSet, mapGet, h, ih]

theorem mapGet_mapSet_ne {β : Type} {k k₀ : String} (hne : k ≠ k₀) (v : β)
    (m : List (String × β)) : mapGet k₀ (mapSet k v m) = mapGet k₀ m := by
  induction m with
  | nil => simp [mapGet, mapSet, hne]
  | cons p rest ih =>
    obtain ⟨k', v'⟩ := p
    by_cases h : k' = k
    · subst h
      simp [mapSet, mapGet, hne]
    · simp [mapSet, mapGet, h, ih]

theorem mapGet_dedupStep (m : List (String × MergedComment)) (x : MergedComment) (k : String) :
    mapGet k (dedupStep m x) = if x.c = k then bestStep (mapGet k m) x else mapGet k m := by
  unfold dedupStep
  by_cases hk : x.c = k
  · subst hk
    cases hm : mapGet x.c m with
    | none => simp [hm, bestStep, mapGet_mapSet_self]
    | some ex =>
      by_cases hlt : ex.finalScore < x.finalScore
      · simp [hm, hlt, bestStep, mapGet_mapSet_self]
      · simp [hm, hlt, bestStep]
  · cases hm : mapGet x.c m with
    | none => simp [hk, mapGet_mapSet_ne hk]
    | some ex =>
      by_cases hlt : ex.finalScore < x.finalScore
      · simp [hm, hlt, hk, mapGet_mapSet_ne hk]
      · simp [hm, hlt, hk]

theorem mapGet_foldl_dedupStep (l : List MergedComment) :
    ∀ (m : List (String × MergedComment)) (k : String),
      mapGet k (l.foldl dedupStep m) =
        (l.filter (fun y => y.c == k)).foldl bestStep (mapGet k m) := by
  induction l with
  | nil => intro m k; rfl
  | cons x l ih =>
    intro m k
    by_cases hk : x.c = k
    · simp only [List.foldl_cons, List.filter_cons, hk, beq_iff_eq, if_pos rfl,
        beq_self_eq_true, ite_true]
      rw [ih, mapGet_dedupStep, if_pos hk]
    · have hbeq : (x.c == k) = false := by
        simp [beq_iff_eq, hk]
      simp only [List.foldl_cons, List.filter_cons, hbeq, Bool.false_eq_true, ite_false]
      rw [ih, mapGet_dedupStep, if_neg hk]

theorem mapGet_dedupFold (l : List MergedComment) (k : String) :
    mapGet k (l.foldl dedupStep []) = bestOf (l.filter (fun y => y.c == k)) := by
  rw [mapGet_foldl_dedupStep]
  rfl

theorem foldl_bestStep_spec (ys : List MergedComment) :
    ∀ (a x : MergedComment), ys.foldl bestStep (some a) = some x →
      (x = a ∨ x ∈ ys) ∧ a.finalScore ≤ x.finalScore ∧
        ∀ y ∈ ys, y.finalScore ≤ x.finalScore := by
  induction ys with
  | nil =>
    intro a x h
    simp only [List.foldl_nil, Option.some.injEq] at h
    subst h
    exact ⟨Or.inl rfl, le_refl _, by simp⟩
  | cons y t ih =>
    intro a x h
    simp only [List.foldl_cons] at h
    by_cases hay : a.finalScore < y.finalScore
    · have hstep : bestStep (some a) y = some y := by simp [bestStep, hay]
      rw [hstep] at h
      obtain ⟨hmem, hle, hall⟩ := ih y x h
      refine ⟨Or.inr ?_, ?_, ?_⟩
      · rcases hmem with rfl | hx
        · exact List.mem_cons_self _ _
        · exact List.mem_cons_of_mem _ hx
      · exact le_of_lt (lt_of_lt_of_le hay hle)
      · intro z hz
        rcases List.mem_cons.mp hz with rfl | hz'
        · exact hle
        · exact hall z hz'
    · have hstep : bestStep (some a) y = some a := by simp [bestStep, hay]
      rw [hstep] at h
      obtain ⟨hmem, hle, hall⟩ := ih a x h
      refine ⟨?_, hle, ?_⟩
      · rcases hmem with rfl | hx
        · exact Or.inl rfl
        · exact Or.inr (List.mem_cons_of_mem _ hx)
      · intro z hz
        rcases List.mem_cons.mp hz with rfl | hz'
        · exact le_trans (le_of_not_lt hay) hle
        · exact hall z hz'

theorem bestOf_spec {ys : List MergedComment} {x : MergedComment} (h : bestOf ys = some x) :
    x ∈ ys ∧ ∀ y ∈ ys, y.finalScore ≤ x.finalScore := by
  cases ys with
  | nil => simp [bestOf] at h
  | cons a t =>
    have h' : t.foldl bestStep (some a) = some x := h
    obtain ⟨hmem, hle, hall⟩ := foldl_bestStep_spec t a x h'
    refine ⟨?_, ?_⟩
    · rcases hmem with rfl | hx
      · exact List.mem_cons_self _ _
      · exact List.mem_cons_of_mem _ hx
    · intro y hy
      rcases List.mem_cons.mp hy with rfl | hy'
      · exact hle
      · exact hall y hy'

theorem foldl_bestStep_isSome (ys : List MergedComment) :
    ∀ a : MergedComment, ∃ x, ys.foldl bestStep (some a) = some x := by
  induction ys with
  | nil => intro a; exact ⟨a, rfl⟩
  | cons y t ih =>
    intro a
    by_cases hay : a.finalScore < y.finalScore
    · have hstep : bestStep (some a) y = some y := by simp [bestStep, hay]
      simpa [hstep] using ih y
    · have hstep : bestStep (some a) y = some a := by simp [bestStep, hay]
      simpa [hstep] using ih a

theorem bestOf_ne_none {ys : List MergedComment} (h : ys ≠ []) :
    ∃ x, bestOf ys = some x := by
  cases ys with
  | nil => exact absurd rfl h
  | cons a t => exact foldl_bestStep_isSome t a

theorem bestOf_eq_of_max {ys : List MergedComment} {x : MergedComment} (hx : x ∈ ys)
    (hmax : ∀ y ∈ ys, y ≠ x → y.finalScore < x.finalScore) : bestOf ys = some x := by
  obtain ⟨z, hz⟩ := bestOf_ne_none (List.ne_nil_of_mem hx)
  obtain ⟨hzmem, hzall⟩ := bestOf_spec hz
  by_cases hzx : z = x
  · rwa [hzx] at hz
  · exact absurd (hzall x hx) (not_le_of_lt (hmax z hzmem hzx))

theorem bestOf_congr_perm {ys ys' : List MergedComment} (hp : ys.Perm ys')
    (hd : ys.Pairwise (fun a b => a.finalScore ≠ b.finalScore)) :
    bestOf ys = bestOf ys' := by
  cases hys : bestOf ys with
  | none =>
    have hnil : ys = [] := by
      by_contra hne
      obtain ⟨x, hx⟩ := bestOf_ne_none hne
      rw [hys] at hx
      exact Option.noConfusion hx
    subst hnil
    have hnil' : ys' = [] := hp.nil_eq.symm
    rw [hnil']
    exact hys.symm
  | some x =>
    obtain ⟨hxmem, hxall⟩ := bestOf_spec hys
    have hsymm : Symmetric fun a b : MergedComment => a.finalScore ≠ b.finalScore :=
      fun a b h => h.symm
    have hmax : ∀ y ∈ ys, y ≠ x → y.finalScore < x.finalScore := fun y hy hne =>
      lt_of_le_of_ne (hxall y hy) (hd.forall hsymm hy hxmem hne)
    have hmax' : ∀ y ∈ ys', y ≠ x → y.finalScore < x.finalScore := fun y hy hne =>
      hmax y (hp.mem_iff.mpr hy) hne
    exact (bestOf_eq_of_max (hp.mem_iff.mp hxmem) hmax').symm

/-! ### Well-formedness of the dedup map

Every state reached by the dedup fold has pairwise-distinct keys, and every
entry is stored under its own content. -/

/-- Invariant of the `uniqueComments` map: keys are pairwise distinct and
each stored comment sits under its own content key. -/
def mapWF (m : List (String × MergedComment)) : Prop :=
  (m.map Prod.fst).Nodup ∧ ∀ p ∈ m, p.2.c = p.1

theorem mapSet_keys_of_mem {β : Type} {k : String} (v : β) {m : List (String × β)}
    (h : k ∈ m.map Prod.fst) : (mapSet k v m).map Prod.fst = m.map Prod.fst := by
  induction m with
  | nil => simp at h
  | cons p rest ih =>
    obtain ⟨k', v'⟩ := p
    by_cases hk : k' = k
    · simp [mapSet, hk]
    · have h' : k ∈ rest.map Prod.fst := by
        rcases List.mem_map.mp h with ⟨q, hq, hqk⟩
        rcases List.mem_cons.mp hq with rfl | hq'
        · exact absurd hqk hk
        · exact List.mem_map.mpr ⟨q, hq', hqk⟩
      simp [mapSet, hk, ih h']

theorem mapSet_keys_of_not_mem {β : Type} {k : String} (v : β) {m : List (String × β)}
    (h : k ∉ m.map Prod.fst) : (mapSet k v m).map Prod.fst = m.map Prod.fst ++ [k] := by
  induction m with
  | nil => simp [mapSet]
  | cons p rest ih =>
    obtain ⟨k', v'⟩ := p
    have hk : k' ≠ k := by
      intro hkk
      exact h (by simp [hkk])
    have h' : k ∉ rest.map Prod.fst := fun hm => h (by simp [hm])
    simp [mapSet, hk, ih h']

theorem mem_mapSet {β : Type} {k : String} {v : β} {m : List (String × β)} {p : String × β}
    (h : p ∈ mapSet k v m) : p ∈ m ∨ p = (k, v) := by
  induction m with
  | nil => simpa [mapSet] using h
  | cons q rest ih =>
    obtain ⟨k', v'⟩ := q
    by_cases hk : k' = k
    · subst hk
      simp only [mapSet, if_pos rfl] at h
      rcases List.mem_cons.mp h with rfl | h'
      · exact Or.inr rfl
      · exact Or.inl (List.mem_cons_of_mem _ h')
    · simp only [mapSet, if_neg hk] at h
      rcases List.mem_cons.mp h with rfl | h'
      · exact Or.inl (List.mem_cons_self _ _)
      · rcases ih h' with h'' | h''
        · exact Or.inl (List.mem_cons_of_mem _ h'')
        · exact Or.inr h''

theorem mapWF_mapSet {k : String} {v : MergedComment} {m : List (String × MergedComment)}
    (hwf : mapWF m) (hv : v.c = k) : mapWF (mapSet k v m) := by
  constructor
  · by_cases hk : k ∈ m.map Prod.fst
    · rw [mapSet_keys_of_mem v hk]
      exact hwf.1
    · rw [mapSet_keys_of_not_mem v hk]
      simp only [List.nodup_append, List.nodup_cons, List.not_mem_nil, not_false_iff,
        List.nodup_nil, and_true, true_and]
      constructor
      · exact hwf.1
      · intro a ha
        simp only [List.mem_singleton]
        intro hak
        subst hak
        exact hk ha
  · intro p hp
    rcases mem_mapSet hp with h' | h'
    · exact hwf.2 p h'
    · subst h'
      exact hv

theorem mapWF_dedupStep {m : List (String × MergedComment)} (hwf : mapWF m)
    (x : MergedComment) : mapWF (dedupStep m x) := by
  unfold dedupStep
  cases mapGet x.c m with
  | none => exact mapWF_mapSet hwf rfl
  | some ex =>
    by_cases hlt : ex.finalScore < x.finalScore
    · simpa [hlt] using mapWF_mapSet hwf rfl
    · simpa [hlt] using hwf

theorem mapWF_foldl_dedupStep (l : List MergedComment) :
    ∀ m : List (String × MergedComment), mapWF m → mapWF (l.foldl dedupStep m) := by
  induction l with
  | nil => intro m hm; exact hm
  | cons x l ih =>
    intro m hm
    exact ih (dedupStep m x) (mapWF_dedupStep hm x)

theorem mapWF_dedupFold (l : List MergedComment) : mapWF (l.foldl dedupStep []) :=
  mapWF_foldl_dedupStep l [] ⟨List.nodup_nil, by simp⟩

theorem mapGet_of_mem {β : Type} {m : List (String × β)} {k : String} {v : β}
    (hnd : (m.map Prod.fst).Nodup) (h : (k, v) ∈ m) : mapGet k m = some v := by
  induction m with
  | nil => simp at h
  | cons p rest ih =>
    obtain ⟨k', v'⟩ := p
    rcases List.mem_cons.mp h with heq | h'
    · obtain ⟨rfl, rfl⟩ := Prod.mk.injEq .. ▸ heq
      simp [mapGet]
    · have hk : k' ≠ k := by
        intro hkk
        subst hkk
        have : k' ∈ rest.map Prod.fst := List.mem_map.mpr ⟨(k', v), h', rfl⟩
        exact (List.nodup_cons.mp (by simpa using hnd)).1 this
      have hnd' : (rest.map Prod.fst).Nodup := (List.nodup_cons.mp (by simpa using hnd)).2
      simp [mapGet, hk, ih hnd' h']

theorem mapGet_mem {β : Type} {m : List (String × β)} {k : String} {v : β}
    (h : mapGet k m = some v) : (k, v) ∈ m := by
  induction m with
  | nil => simp [mapGet] at h
  | cons p rest ih =>
    obtain ⟨k', v'⟩ := p
    by_cases hk : k' = k
    · subst hk
      simp [mapGet] at h
      simp [h]
    · simp only [mapGet, if_neg hk] at h
      exact List.mem_cons_of_mem _ (ih h)

/-! ### Membership in the dedup output -/

theorem mem_dedupByContent_iff {l : List MergedComment} {x : MergedComment} :
    x ∈ dedupByContent l ↔ bestOf (l.filter (fun y => y.c == x.c)) = some x := by
  have hwf := mapWF_dedupFold l
  constructor
  · intro hx
    rcases List.mem_map.mp hx with ⟨p, hp, hpx⟩
    obtain ⟨k, v⟩ := p
    have hvc : v.c = k := hwf.2 (k, v) hp
    have hvx : v = x := hpx
    subst hvx
    rw [← mapGet_dedupFold, hvc]
    exact mapGet_of_mem hwf.1 hp
  · intro hbest
    rw [← mapGet_dedupFold] at hbest
    exact List.mem_map.mpr ⟨(x.c, x), mapGet_mem hbest, rfl⟩

theorem dedupByContent_subset {l : List MergedComment} {x : MergedComment}
    (hx : x ∈ dedupByContent l) : x ∈ l := by
  have hbest := mem_dedupByContent_iff.mp hx
  exact List.mem_of_mem_filter (bestOf_spec hbest).1

theorem dedupByContent_unique {l : List MergedComment} {x y : MergedComment}
    (hx : x ∈ dedupByContent l) (hy : y ∈ dedupByContent l) (hc : x.c = y.c) : x = y := by
  have hbx := mem_dedupByContent_iff.mp hx
  have hby := mem_dedupByContent_iff.mp hy
  rw [hc] at hbx
  rw [hbx] at hby
  exact (Option.some.injEq .. ▸ hby)

theorem dedupByContent_nodup (l : List MergedComment) : (dedupByContent l).Nodup := by
  have hwf := mapWF_dedupFold l
  have hkeys : (dedupByContent l).map (fun m => m.c) = (l.foldl dedupStep []).map Prod.fst := by
    unfold dedupByContent
    rw [List.map_map]
    exact List.map_congr_left fun p hp => hwf.2 p hp
  exact List.Nodup.of_map _ (hkeys ▸ hwf.1)

/-! ### The stable descending sort -/

/-- Descending score order: the relation under which the output of
`sortCommentsByScore` is sorted. -/
def scoreGE (a b : MergedComment) : Prop := b.finalScore ≤ a.finalScore

theorem insertByScore_perm (x : MergedComment) (l : List MergedComment) :
    (insertByScore x l).Perm (x :: l) := by
  induction l with
  | nil => exact List.Perm.refl _
  | cons y ys ih =>
    by_cases h : y.finalScore ≤ x.finalScore
    · simp [insertByScore, h]
    · simp only [insertByScore, if_neg h]
      exact (ih.cons y).trans (List.Perm.swap x y ys)

theorem sortCommentsByScore_perm (l : List MergedComment) :
    (sortCommentsByScore l).Perm l := by
  induction l with
  | nil => exact List.Perm.refl _
  | cons x xs ih =>
    exact (insertByScore_perm x (sortCommentsByScore xs)).trans (ih.cons x)

theorem mem_insertByScore {x z : MergedComment} {l : List MergedComment} :
    z ∈ insertByScore x l ↔ z = x ∨ z ∈ l := by
  rw [(insertByScore_perm x l).mem_iff]
  simp

theorem insertByScore_sorted {x : MergedComment} {l : List MergedComment}
    (hl : l.Pairwise scoreGE) : (insertByScore x l).Pairwise scoreGE := by
  induction l with
  | nil => simp [insertByScore]
  | cons y ys ih =>
    rcases List.pairwise_cons.mp hl with ⟨hy, hys⟩
    by_cases h : y.finalScore ≤ x.finalScore
    · simp only [insertByScore, if_pos h]
      refine List.pairwise_cons.mpr ⟨?_, hl⟩
      intro z hz
      rcases List.mem_cons.mp hz with rfl | hz'
      · exact h
      · exact le_trans (hy z hz') h
    · simp only [insertByScore, if_neg h]
      refine List.pairwise_cons.mpr ⟨?_, ih hys⟩
      intro z hz
      rcases mem_insertByScore.mp hz with rfl | hz'
      · exact le_of_not_le h
      · exact hy z hz'

theorem sortCommentsByScore_sorted (l : List MergedComment) :
    (sortCommentsByScore l).Pairwise scoreGE := by
  induction l with
  | nil => simp [sortCommentsByScore]
  | cons x xs ih => exact insertByScore_sorted ih

theorem filter_insertByScore_eq {x : MergedComment} {s : Rat} (hx : x.finalScore = s)
    (l : List MergedComment) :
    (insertByScore x l).filter (fun m => decide (m.finalScore = s)) =
      x :: l.filter (fun m => decide (m.finalScore = s)) := by
  induction l with
  | nil => simp [insertByScore, hx]
  | cons y ys ih =>
    by_cases h : y.finalScore ≤ x.finalScore
    · rw [insertByScore, if_pos h]
      simp [List.filter_cons, hx]
    · have hys : y.finalScore ≠ s := fun hs => h (le_of_eq (hs.trans hx.symm))
      rw [insertByScore, if_neg h]
      simp [List.filter_cons, hys, ih]

theorem filter_insertByScore_ne {x : MergedComment} {s : Rat} (hx : x.finalScore ≠ s)
    (l : List MergedComment) :
    (insertByScore x l).filter (fun m => decide (m.finalScore = s)) =
      l.filter (fun m => decide (m.finalScore = s)) := by
  induction l with
  | nil => simp [insertByScore, hx]
  | cons y ys ih =>
    by_cases h : y.finalScore ≤ x.finalScore
    · rw [insertByScore, if_pos h]
      simp [List.filter_cons, hx]
    · rw [insertByScore, if_neg h]
      simp [List.filter_cons, ih]

theorem sortCommentsByScore_stable (l : List MergedComment) (s : Rat) :
    (sortCommentsByScore l).filter (fun m => decide (m.finalScore = s)) =
      l.filter (fun m => decide (m.finalScore = s)) := by
  induction l with
  | nil => rfl
  | cons x xs ih =>
    by_cases hx : x.finalScore = s
    · rw [sortCommentsByScore, filter_insertByScore_eq hx, ih]
      simp [List.filter_cons, hx]
    · rw [sortCommentsByScore, filter_insertByScore_ne hx, ih]
      simp [List.filter_cons, hx]

/-! ### The spec's description of the kept duplicate

Spec section 4.2 step 4 describes the comment kept for one content class as
the one with the strictly higher score, the first encountered on an exact
tie — i.e. the first element of the class attaining the maximal score. -/

/-- Modelled from the spec's words (for comparison with the dedup fold of
the source): the first comment in iteration order whose score is maximal in
its content class. -/
def specFirstMax (ys : List MergedComment) : Option MergedComment :=
  ys.find? fun x => ys.all fun y => decide (y.finalScore ≤ x.finalScore)

theorem find?_congr_on {α : Type} {p q : α → Bool} :
    ∀ {l : List α}, (∀ x ∈ l, p x = q x) → l.find? p = l.find? q := by
  intro l
  induction l with
  | nil => intro _; rfl
  | cons a t ih =>
    intro h
    rw [List.find?_cons, List.find?_cons, h a (List.mem_cons_self _ _),
      ih fun x hx => h x (List.mem_cons_of_mem _ hx)]

theorem specFirstMax_cons (a : MergedComment) (t : List MergedComment) :
    specFirstMax (a :: t) =
      if t.all (fun z => decide (z.finalScore ≤ a.finalScore)) then some a
      else specFirstMax t := by
  by_cases hall : t.all (fun z => decide (z.finalScore ≤ a.finalScore)) = true
  · have hpa : ((a :: t).all fun y => decide (y.finalScore ≤ a.finalScore)) = true := by
      simp only [List.all_cons, hall, Bool.and_true, decide_eq_true_eq]
      exact le_refl _
    rw [if_pos hall]
    exact List.find?_cons_of_pos _ hpa
  · obtain ⟨w, hw, hwa⟩ : ∃ w ∈ t, ¬w.finalScore ≤ a.finalScore := by
      by_contra hcon
      push_neg at hcon
      exact hall (List.all_eq_true.mpr fun x hx => decide_eq_true (hcon x hx))
    have hpa : ¬((a :: t).all fun y => decide (y.finalScore ≤ a.finalScore)) = true := by
      simp only [List.all_eq_true, decide_eq_true_eq]
      intro hc
      exact hwa (hc w (List.mem_cons_of_mem _ hw))
    rw [if_neg hall]
    calc specFirstMax (a :: t)
        = List.find? (fun x => (a :: t).all fun y => decide (y.finalScore ≤ x.finalScore)) t :=
          List.find?_cons_of_neg t hpa
      _ = specFirstMax t := ?_
    apply find?_congr_on
    intro x hx
    by_cases htx : t.all (fun y => decide (y.finalScore ≤ x.finalScore)) = true
    · have hax : a.finalScore ≤ x.finalScore := by
        have hwx : w.finalScore ≤ x.finalScore :=
          decide_eq_true_eq.mp (List.all_eq_true.mp htx w hw)
        exact le_trans (le_of_not_le hwa) hwx
    
      simp only [List.all_cons, htx, Bool.and_true, decide_eq_true_eq]
      simpa using hax
    · have htx' : t.all (fun y => decide (y.finalScore ≤ x.finalScore)) = false :=
        Bool.eq_false_iff.mpr htx
      simp [List.all_cons, htx']

theorem foldl_bestStep_eq_specFirstMax (t : List MergedComment) :
    ∀ a : MergedComment, t.foldl bestStep (some a) = specFirstMax (a :: t) := by
  induction t with
  | nil =>
    intro a
    rw [specFirstMax_cons]
    simp
  | cons z t' ih =>
    intro a
    rw [List.foldl_cons]
    by_cases haz : a.finalScore < z.finalScore
    · have hstep : bestStep (some a) z = some z := by simp [bestStep, haz]
      rw [hstep, ih z, specFirstMax_cons a (z :: t')]
      have hza : ((z :: t').all fun y => decide (y.finalScore ≤ a.finalScore)) = false := by
        simp only [List.all_cons, Bool.and_eq_false_iff]
        left
        simpa using not_le_of_lt haz
      rw [hza]
      simp
    · have hstep : bestStep (some a) z = some a := by simp [bestStep, haz]
      rw [hstep, ih a, specFirstMax_cons a t', specFirstMax_cons a (z :: t')]
      have hza : z.finalScore ≤ a.finalScore := le_of_not_lt haz
      by_cases hta : t'.all (fun y => decide (y.finalScore ≤ a.finalScore)) = true
      · have hall : ((z :: t').all fun y => decide (y.finalScore ≤ a.finalScore)) = true := by
          simp only [List.all_cons, hta, Bool.and_true, decide_eq_true_eq]
          simpa using hza
        rw [hall, if_pos hta]
        simp
      · obtain ⟨w, hw, hwa⟩ : ∃ w ∈ t', ¬w.finalScore ≤ a.finalScore := by
          by_contra hcon
          push_neg at hcon
          exact hta (List.all_eq_true.mpr fun x hx => decide_eq_true (hcon x hx))
        have hta' : t'.all (fun y => decide (y.finalScore ≤ a.finalScore)) = false :=
          Bool.eq_false_iff.mpr hta
        have hall : ((z :: t').all fun y => decide (y.finalScore ≤ a.finalScore)) = false := by
          simp only [List.all_cons, Bool.and_eq_false_iff]
          right
          exact hta'
        rw [hall, if_neg hta, specFirstMax_cons z t']
        have htz : (t'.all fun y => decide (y.finalScore ≤ z.finalScore)) = false := by
          apply Bool.eq_false_iff.mpr
          intro hc
          have hwz := decide_eq_true_eq.mp (List.all_eq_true.mp hc w hw)
          exact hwa (le_trans hwz hza)
        rw [htz]
        simp

theorem bestOf_eq_specFirstMax (ys : List MergedComment) : bestOf ys = specFirstMax ys := by
  cases ys with
  | nil => rfl
  | cons a t =>
    have h1 : bestOf (a :: t) = t.foldl bestStep (some a) := rfl
    rw [h1, foldl_bestStep_eq_specFirstMax]

/-! ### Permutation invariance of the merge under pairwise-distinct scores -/

/-- No two merged comments carry the same score; under this hypothesis the
dedup tie-break and the sort order are uniquely determined. -/
def scoreDistinct (l : List MergedComment) : Prop :=
  l.Pairwise fun a b => a.finalScore ≠ b.finalScore

theorem scoreDistinct_symm :
    ∀ {a b : MergedComment}, a.finalScore ≠ b.finalScore → b.finalScore ≠ a.finalScore :=
  fun h => h.symm

theorem scoreDistinct_symmetric :
    Symmetric fun a b : MergedComment => a.finalScore ≠ b.finalScore :=
  fun _ _ h => h.symm

theorem dedupByContent_perm {l l' : List MergedComment} (hp : l.Perm l')
    (hd : scoreDistinct l) : (dedupByContent l).Perm (dedupByContent l') := by
  refine (List.perm_ext_iff_of_nodup (dedupByContent_nodup l) (dedupByContent_nodup l')).mpr ?_
  intro x
  rw [mem_dedupByContent_iff, mem_dedupByContent_iff]
  have hfp : (l.filter (fun y => y.c == x.c)).Perm (l'.filter (fun y => y.c == x.c)) :=
    hp.filter _
  have hfd : (l.filter (fun y => y.c == x.c)).Pairwise
      (fun a b => a.finalScore ≠ b.finalScore) :=
    hd.sublist (List.filter_sublist l)
  rw [bestOf_congr_perm hfp hfd]

theorem scoreDistinct_dedupByContent {l : List MergedComment} (hd : scoreDistinct l) :
    scoreDistinct (dedupByContent l) :=
  (dedupByContent_nodup l).imp_of_mem fun ha hb hne =>
    hd.forall scoreDistinct_symmetric (dedupByContent_subset ha) (dedupByContent_subset hb) hne

/-- Strict descending score order. -/
def scoreGT (a b : MergedComment) : Prop := b.finalScore < a.finalScore

instance : IsAntisymm MergedComment scoreGT where
  antisymm _ _ h h' := absurd h' (not_lt_of_lt h)

theorem sortCommentsByScore_sorted_strict {m : List MergedComment} (hd : scoreDistinct m) :
    (sortCommentsByScore m).Pairwise scoreGT := by
  have hsorted := sortCommentsByScore_sorted m
  have hdist : scoreDistinct (sortCommentsByScore m) :=
    (List.Perm.pairwise_iff scoreDistinct_symm (sortCommentsByScore_perm m)).mpr hd
  exact (hsorted.and hdist).imp fun h => lt_of_le_of_ne h.1 h.2.symm

theorem sort_dedup_eq_of_perm {l l' : List MergedComment} (hp : l.Perm l')
    (hd : scoreDistinct l) :
    sortCommentsByScore (dedupByContent l) = sortCommentsByScore (dedupByContent l') := by
  have hd' : scoreDistinct l' := (List.Perm.pairwise_iff scoreDistinct_symm hp).mp hd
  have hdd := dedupByContent_perm hp hd
  have hperm :
      (sortCommentsByScore (dedupByContent l)).Perm
        (sortCommentsByScore (dedupByContent l')) :=
    ((sortCommentsByScore_perm _).trans hdd).trans (sortCommentsByScore_perm _).symm
  exact List.eq_of_perm_of_sorted hperm
    (sortCommentsByScore_sorted_strict (scoreDistinct_dedupByContent hd))
    (sortCommentsByScore_sorted_strict (scoreDistinct_dedupByContent hd'))

theorem allMergedOf_perm {files files' : List (Option AnalysisFile)} (hp : files.Perm files') :
    (allMergedOf files).Perm (allMergedOf files') :=
  (hp.filterMap id).flatMap_right mergeCommentsWithScores

/-! ### Shape of a successful merge output -/

theorem mergeAndSortResults_some_eq {files : List (Option AnalysisFile)} {out : MergeOutput}
    (h : mergeAndSortResults files = some out) :
    out =
      { totalComments := (sortCommentsByScore (dedupByContent (allMergedOf files))).length
        processedFiles := (files.filterMap id).length
        highestScore :=
          ((sortCommentsByScore (dedupByContent (allMergedOf files))).head?.map
            MergedComment.finalScore).getD 0
        lowestScore :=
          ((sortCommentsByScore (dedupByContent (allMergedOf files))).getLast?.map
            MergedComment.finalScore).getD 0
        comments := sortCommentsByScore (dedupByContent (allMergedOf files)) } := by
  simp only [mergeAndSortResults] at h
  split_ifs at h
  all_goals first
  | exact Option.noConfusion h
  | exact (Option.some_inj.mp h).symm

theorem mergeAndSortResults_comments {files : List (Option AnalysisFile)} {out : MergeOutput}
    (h : mergeAndSortResults files = some out) :
    out.comments = sortCommentsByScore (dedupByContent (allMergedOf files)) := by
  rw [mergeAndSortResults_some_eq h]

/-! ### Claim C5 -/

/-- A single-item batch: content "X" at score 50, stored at timestamp "t1". -/
def tieFile1 : AnalysisFile :=
  { timestamp := "t1"
    inputComments := [{ id := 1, t := "1", c := "X", l := "0", r := "0", isTopComments := none }]
    systemMessage := "m"
    bestCommentsCount := 1
    analysisResults := [("1", ⟨50⟩)] }

/-- A single-item batch: content "Y", also at score 50, stored at "t2". -/
def tieFile2 : AnalysisFile :=
  { timestamp := "t2"
    inputComments := [{ id := 1, t := "1", c := "Y", l := "0", r := "0", isTopComments := none }]
    systemMessage := "m"
    bestCommentsCount := 1
    analysisResults := [("1", ⟨50⟩)] }

/-- Claim C5, counterexample: the merge output is NOT invariant under the
order in which the store lists the batch files.  With two equal-score
comments of different content, listing the batches in the two possible
orders yields two different ranked sequences (the stable sort keeps
equal-score items in encounter order, which follows the listing order). -/
theorem merge_depends_on_listing_order_counterexample :
    mergeAndSortResults [some tieFile1, some tieFile2] ≠
      mergeAndSortResults [some tieFile2, some tieFile1] := by decide

/-- Claim C5, amended: when no two merged comments carry the same
`finalScore`, the merge output is the same for every enumeration order of
the same stored records. -/
theorem merge_perm_invariant_of_distinct_scores
    (files files' : List (Option AnalysisFile)) (hp : files.Perm files')
    (hd : scoreDistinct (allMergedOf files)) :
    mergeAndSortResults files = mergeAndSortResults files' := by
  have hall : (allMergedOf files).Perm (allMergedOf files') := allMergedOf_perm hp
  have hsort := sort_dedup_eq_of_perm hall hd
  have hlen : files.length = files'.length := hp.length_eq
  have hpf : (files.filterMap id).length = (files'.filterMap id).length :=
    (hp.filterMap id).length_eq
  have hml : (allMergedOf files).length = (allMergedOf files').length := hall.length_eq
  simp only [mergeAndSortResults]
  rw [hlen, hpf, hml, hsort]

/-- A single-item batch with score 40 (content "X"). -/
def distinctFileA : AnalysisFile :=
  { timestamp := "tA"
    inputComments := [{ id := 1, t := "1", c := "X", l := "0", r := "0", isTopComments := none }]
    systemMessage := "m"
    bestCommentsCount := 1
    analysisResults := [("1", ⟨40⟩)] }

/-- A single-item batch with score 70 (content "Y"). -/
def distinctFileB : AnalysisFile :=
  { timestamp := "tB"
    inputComments := [{ id := 5, t := "1", c := "Y", l := "0", r := "0", isTopComments := none }]
    systemMessage := "m"
    bestCommentsCount := 1
    analysisResults := [("5", ⟨70⟩)] }

/-- Witness for the amended claim C5 at a concrete permuted store. -/
theorem merge_perm_invariant_of_distinct_scores_witness :
    [some distinctFileA, some distinctFileB].Perm [some distinctFileB, some distinctFileA] ∧
    scoreDistinct (allMergedOf [some distinctFileA, some distinctFileB]) ∧
    mergeAndSortResults [some distinctFileA, some distinctFileB] =
      mergeAndSortResults [some distinctFileB, some distinctFileA] :=
  ⟨by decide, by simp only [scoreDistinct]; decide,
    merge_perm_invariant_of_distinct_scores _ _ (by decide)
      (by simp only [scoreDistinct]; decide)⟩

/-! ### Claims C1 and C2: dedup correctness and sortedness/stability -/

/-- Claim C1: in every merge output there is exactly one comment per
content, and it is the first comment in iteration order attaining the
maximal score of its content class (so a strictly higher score wins, and
an exact tie keeps the comment encountered first). -/
theorem merge_dedup_keeps_first_max
    (files : List (Option AnalysisFile)) (out : MergeOutput)
    (h : mergeAndSortResults files = some out) :
    (∀ x ∈ out.comments, ∀ y ∈ out.comments, x.c = y.c → x = y) ∧
    (∀ x ∈ out.comments,
      specFirstMax ((allMergedOf files).filter (fun y => y.c == x.c)) = some x) ∧
    (∀ y ∈ allMergedOf files, ∃ x, x ∈ out.comments ∧ x.c = y.c) := by
  have hc := mergeAndSortResults_comments h
  have hmem : ∀ x, x ∈ out.comments ↔ x ∈ dedupByContent (allMergedOf files) := by
    intro x
    rw [hc]
    exact (sortCommentsByScore_perm _).mem_iff
  refine ⟨?_, ?_, ?_⟩
  · intro x hx y hy hxy
    exact dedupByContent_unique ((hmem x).mp hx) ((hmem y).mp hy) hxy
  · intro x hx
    rw [← bestOf_eq_specFirstMax]
    exact mem_dedupByContent_iff.mp ((hmem x).mp hx)
  · intro y hy
    have hyf : y ∈ (allMergedOf files).filter (fun z => z.c == y.c) :=
      List.mem_filter.mpr ⟨hy, by simp⟩
    obtain ⟨x, hx⟩ := bestOf_ne_none (List.ne_nil_of_mem hyf)
    have hxmemf := (bestOf_spec hx).1
    have hxc : x.c = y.c := by
      simpa using (List.mem_filter.mp hxmemf).2
    refine ⟨x, ?_, hxc⟩
    apply (hmem x).mpr
    rw [mem_dedupByContent_iff, hxc]
    exact hx

/-- Claim C2: every merge output is sorted descending by score (each
comment's score is at least the score of every later comment), and the
sort is stable: the comments of any fixed score appear in exactly the
relative order the dedup step produced them in. -/
theorem merge_output_sorted_stable
    (files : List (Option AnalysisFile)) (out : MergeOutput)
    (h : mergeAndSortResults files = some out) :
    out.comments.Pairwise scoreGE ∧
    ∀ s : Rat,
      out.comments.filter (fun m => decide (m.finalScore = s)) =
        (dedupByContent (allMergedOf files)).filter (fun m => decide (m.finalScore = s)) := by
  have hc := mergeAndSortResults_comments h
  constructor
  · rw [hc]
    exact sortCommentsByScore_sorted _
  · intro s
    rw [hc]
    exact sortCommentsByScore_stable _ s

/-! ### Shared concrete witness data -/

instance : Inhabited MergeOutput := ⟨⟨0, 0, 0, 0, []⟩⟩

/-- The unscored comment of `wfile1` (no entry under key "3"). -/
def wUnscored : Comment := { id := 3, t := "1", c := "C", l := "0", r := "0", isTopComments := none }

/-- A batch with two scored comments ("A" and "B", both at 60) and one
unscored comment ("C"). -/
def wfile1 : AnalysisFile :=
  { timestamp := "t1"
    inputComments :=
      [{ id := 1, t := "1", c := "A", l := "0", r := "0", isTopComments := none },
       { id := 2, t := "2", c := "B", l := "0", r := "0", isTopComments := none },
       wUnscored]
    systemMessage := "m"
    bestCommentsCount := 2
    analysisResults := [("1", ⟨60⟩), ("2", ⟨60⟩)] }

/-- The comment of `wfile2`: same content "A", scored 150 (above 100). -/
def wC9cm : Comment := { id := 7, t := "9", c := "A", l := "4", r := "2", isTopComments := none }

/-- A batch whose single comment duplicates content "A" with score 150. -/
def wfile2 : AnalysisFile :=
  { timestamp := "t2"
    inputComments := [wC9cm]
    systemMessage := "m"
    bestCommentsCount := 2
    analysisResults := [("7", ⟨150⟩)] }

/-- A store listing `wfile1`, one malformed file, and `wfile2`. -/
def wStore : List (Option AnalysisFile) := [some wfile1, none, some wfile2]

/-- The merge output over `wStore`. -/
def wOut : MergeOutput := (mergeAndSortResults wStore).getD default

/-- The winning merged comment for content "A" in `wStore`: the score-150
duplicate from `wfile2`. -/
def wTop : MergedComment :=
  { id := 7, t := "9", c := "A", l := "4", r := "2", isTopComments := none,
    finalScore := 150, analysisTimestamp := "t2" }

/-- Witness for claim C1: in the concrete store, content "A" appears in two
batches (scores 60 and 150) and the kept comment is the score-150 one. -/
theorem merge_dedup_keeps_first_max_witness :
    specFirstMax ((allMergedOf wStore).filter (fun y => y.c == "A")) = some wTop :=
  (merge_dedup_keeps_first_max wStore wOut (by decide)).2.1 wTop (by decide)

/-- Witness for claim C2 at the concrete store: output sorted descending,
and the score-60 comments keep their dedup-order. -/
theorem merge_output_sorted_stable_witness :
    wOut.comments.Pairwise scoreGE ∧
    wOut.comments.filter (fun m => decide (m.finalScore = (60 : Rat))) =
      (dedupByContent (allMergedOf wStore)).filter
        (fun m => decide (m.finalScore = (60 : Rat))) :=
  ⟨(merge_output_sorted_stable wStore wOut (by decide)).1,
   (merge_output_sorted_stable wStore wOut (by decide)).2 60⟩

/-! ### Claim C3: unscored items are silently dropped -/

theorem filterMap_map_length {α β γ : Type} (g : α → Option β) (h : α → β → γ)
    (l : List α) :
    (l.filterMap fun x => (g x).map (h x)).length =
      (l.filter fun x => (g x).isSome).length := by
  induction l with
  | nil => rfl
  | cons a t ih =>
    cases hga : g a with
    | none => simp [List.filterMap_cons, List.filter_cons, hga, ih]
    | some b => simp [List.filterMap_cons, List.filter_cons, hga, ih]

/-- Claim C3: a comment of a stored batch with no entry in the batch's
score map under its stringified id is dropped from that batch's merged
comments (no comment with its id is emitted, and the emitted count equals
the count of scored comments, so the run continues with the rest), and
every comment of any merge output comes from the merged comments of some
parseable stored batch. -/
theorem unscored_items_never_merged
    (f : AnalysisFile) (cm : Comment) (hmem : cm ∈ f.inputComments)
    (hnone : mapGet (toString cm.id) f.analysisResults = none) :
    (∀ m ∈ mergeCommentsWithScores f, m.id ≠ cm.id) ∧
    (mergeCommentsWithScores f).length =
      (f.inputComments.filter
        (fun x => (mapGet (toString x.id) f.analysisResults).isSome)).length ∧
    (∀ (files : List (Option AnalysisFile)) (out : MergeOutput),
      mergeAndSortResults files = some out →
      ∀ m ∈ out.comments, ∃ g, g ∈ files.filterMap id ∧ m ∈ mergeCommentsWithScores g) := by
  refine ⟨?_, ?_, ?_⟩
  · intro m hm hid
    obtain ⟨cm', hcm', heq⟩ := List.mem_filterMap.mp hm
    obtain ⟨sc, hsc, hmk⟩ := Option.map_eq_some'.mp heq
    have hid' : m.id = cm'.id := by rw [← hmk]; rfl
    have hcc : toString cm'.id = toString cm.id := by rw [← hid', hid]
    rw [hcc, hnone] at hsc
    exact Option.noConfusion hsc
  · exact filterMap_map_length _ _ _
  · intro files out h m hm
    rw [mergeAndSortResults_comments h] at hm
    have hm' : m ∈ dedupByContent (allMergedOf files) :=
      (sortCommentsByScore_perm _).mem_iff.mp hm
    have hma : m ∈ allMergedOf files := dedupByContent_subset hm'
    obtain ⟨g, hg, hmg⟩ := List.mem_flatMap.mp hma
    exact ⟨g, hg, hmg⟩

/-- Witness for claim C3: in `wfile1` the id-3 comment "C" is unscored,
and exactly the two scored comments are emitted. -/
theorem unscored_items_never_merged_witness :
    (mergeCommentsWithScores wfile1).length =
      (wfile1.inputComments.filter
        (fun x => (mapGet (toString x.id) wfile1.analysisResults).isSome)).length :=
  (unscored_items_never_merged wfile1 wUnscored (by decide) (by decide)).2.1

/-! ### Claim C9: scores and fields are carried through unchanged -/

/-- Claim C9: every comment emitted by the per-batch merge loop is exactly
the spread of a stored input comment with the looked-up score — the score
is the exact score-map value (no clamping or rounding, values above 100
included) and id, time, content, likes and replies are unchanged — and
conversely every scored input comment is emitted in this exact shape. -/
theorem merged_fields_preserved_exactly (f : AnalysisFile) :
    (∀ cm ∈ f.inputComments, ∀ sc : CommentScore,
      mapGet (toString cm.id) f.analysisResults = some sc →
      mkMergedComment cm sc f.timestamp ∈ mergeCommentsWithScores f) ∧
    (∀ m ∈ mergeCommentsWithScores f, ∃ cm, cm ∈ f.inputComments ∧ ∃ sc : CommentScore,
      mapGet (toString cm.id) f.analysisResults = some sc ∧
      m = mkMergedComment cm sc f.timestamp) ∧
    (∀ (cm : Comment) (sc : CommentScore) (ts : String),
      (mkMergedComment cm sc ts).finalScore = sc.finalScore ∧
      (mkMergedComment cm sc ts).id = cm.id ∧
      (mkMergedComment cm sc ts).t = cm.t ∧
      (mkMergedComment cm sc ts).c = cm.c ∧
      (mkMergedComment cm sc ts).l = cm.l ∧
      (mkMergedComment cm sc ts).r = cm.r ∧
      (mkMergedComment cm sc ts).analysisTimestamp = ts) := by
  refine ⟨?_, ?_, ?_⟩
  · intro cm hcm sc hsc
    apply List.mem_filterMap.mpr
    exact ⟨cm, hcm, by rw [hsc]; rfl⟩
  · intro m hm
    obtain ⟨cm, hcm, heq⟩ := List.mem_filterMap.mp hm
    obtain ⟨sc, hsc, hmk⟩ := Option.map_eq_some'.mp heq
    exact ⟨cm, hcm, sc, hsc, hmk.symm⟩
  · intro cm sc ts
    exact ⟨rfl, rfl, rfl, rfl, rfl, rfl, rfl⟩

/-- Witness for claim C9: the score-150 comment of `wfile2` is emitted
with score exactly 150 and all fields unchanged. -/
theorem merged_fields_preserved_exactly_witness :
    mkMergedComment wC9cm ⟨150⟩ "t2" ∈ mergeCommentsWithScores wfile2 ∧
    (mkMergedComment wC9cm ⟨150⟩ "t2").finalScore = 150 :=
  ⟨(merged_fields_preserved_exactly wfile2).1 wC9cm (by decide) ⟨150⟩ (by decide),
   by decide⟩

/-! ### Claims C7 and C8: malformed records and empty runs -/

/-- Claim C7: a merge run over a store with unreadable or unparseable
records produces exactly the output of a run over the parseable records
alone (the malformed ones are skipped and the run continues), and the
reported `processedFiles` count counts exactly the parseable records, so
skipped records are counted as processing failures by exclusion. -/
theorem malformed_records_skipped_and_counted (files : List (Option AnalysisFile)) :
    mergeAndSortResults files = mergeAndSortResults ((files.filterMap id).map some) ∧
    ∀ out : MergeOutput, mergeAndSortResults files = some out →
      out.processedFiles = (files.filterMap id).length := by
  constructor
  · have hfm : ((files.filterMap id).map some).filterMap id = files.filterMap id := by
      rw [List.filterMap_map]
      simp
    have hall : allMergedOf ((files.filterMap id).map some) = allMergedOf files := by
      unfold allMergedOf
      rw [hfm]
    by_cases h0 : files.length = 0
    · have hnil : files = [] := List.length_eq_zero.mp h0
      subst hnil
      rfl
    · by_cases h1 : (files.filterMap id).length = 0
      · have hnil : files.filterMap id = [] := List.length_eq_zero.mp h1
        have hmerged : allMergedOf files = [] := by
          unfold allMergedOf
          rw [hnil]
          rfl
        simp [mergeAndSortResults, hmerged, hnil, h0]
      · simp only [mergeAndSortResults, hall, hfm, List.length_map]
        simp [h0, h1]
  · intro out h
    rw [mergeAndSortResults_some_eq h]

/-- Witness for claim C7 at the concrete store with one malformed file. -/
theorem malformed_records_skipped_and_counted_witness :
    mergeAndSortResults wStore = mergeAndSortResults ((wStore.filterMap id).map some) ∧
    wOut.processedFiles = (wStore.filterMap id).length :=
  ⟨(malformed_records_skipped_and_counted wStore).1,
   (malformed_records_skipped_and_counted wStore).2 wOut (by decide)⟩

/-- Claim C8: a merge over an empty store writes nothing, and a merge
whose scored-comment pool is empty after all skipping writes nothing; both
are plain no-ops, not errors. -/
theorem empty_merge_is_noop :
    mergeAndSortResults [] = none ∧
    ∀ files : List (Option AnalysisFile), allMergedOf files = [] →
      mergeAndSortResults files = none := by
  constructor
  · rfl
  · intro files hempty
    unfold mergeAndSortResults
    by_cases h0 : files.length = 0
    · rw [if_pos h0]
    · rw [if_neg h0]
      simp [hempty]

/-- A batch whose only comment has no score entry at all. -/
def unscoredFile : AnalysisFile :=
  { timestamp := "tU"
    inputComments := [{ id := 9, t := "1", c := "Z", l := "0", r := "0", isTopComments := none }]
    systemMessage := "m"
    bestCommentsCount := 1
    analysisResults := [] }

/-- Witness for claim C8: a nonempty store whose only batch yields zero
mergeable comments is a no-op. -/
theorem empty_merge_is_noop_witness :
    allMergedOf [some unscoredFile] = [] ∧
    mergeAndSortResults [some unscoredFile] = none :=
  ⟨by decide, empty_merge_is_noop.2 [some unscoredFile] (by decide)⟩

/-! ### Claim C4: pinned items

The /analyze-comments route of src/index.ts partitions the validated
comments into top comments (`isTopComments === true`) and regular
comments (`!comment.isTopComments`), assigns every top comment the fixed
score 101 before any scoring call, and merges the external scorer's
response for the regular comments into the same object with
`Object.assign`. -/

/-- The route's `comments.filter(comment => comment.isTopComments === true)`. -/
def topComments (comments : List Comment) : List Comment :=
  comments.filter fun comment => decide (comment.isTopComments = some true)

/-- The route's `comments.filter(comment => !comment.isTopComments)`
(JS truthiness: both an absent flag and an explicit `false` are falsy). -/
def regularComments (comments : List Comment) : List Comment :=
  comments.filter fun comment => !(comment.isTopComments.getD false)

/-- The loop `parsedResponse[comment.id.toString()] = { finalScore: 101 }`
over the top comments. -/
def pinnedScores (comments : List Comment) : List (String × CommentScore) :=
  (topComments comments).foldl (fun acc comment => mapSet (toString comment.id) ⟨101⟩ acc) []

/-- `Object.assign(target, src)`: fold the source entries into the target. -/
def objAssign {β : Type} (target src : List (String × β)) : List (String × β) :=
  src.foldl (fun acc kv => mapSet kv.1 kv.2 acc) target

/-- The `parsedResponse` object stored as `analysisResults` by the route:
the pinned 101-scores, merged with the external scorer's response when any
regular comments exist (no scoring call happens otherwise). -/
def buildAnalysisResults (comments : List Comment)
    (aiResponse : List (String × CommentScore)) : List (String × CommentScore) :=
  if (regularComments comments).length = 0 then pinnedScores comments
  else objAssign (pinnedScores comments) aiResponse

theorem mapGet_foldl_mapSet_const {v : CommentScore} (cs : List Comment) :
    ∀ (acc : List (String × CommentScore)) (k : String),
      (k ∈ cs.map (fun c => toString c.id) ∨ mapGet k acc = some v) →
      mapGet k (cs.foldl (fun a c => mapSet (toString c.id) v a) acc) = some v := by
  induction cs with
  | nil =>
    intro acc k h
    rcases h with h | h
    · simp at h
    · exact h
  | cons c cs' ih =>
    intro acc k h
    rw [List.foldl_cons]
    apply ih
    by_cases hk : k = toString c.id
    · right
      rw [hk]
      exact mapGet_mapSet_self _ _ _
    · rcases h with h | h
      · rcases List.mem_map.mp h with ⟨c', hc', hck⟩
        rcases List.mem_cons.mp hc' with rfl | hc''
        · exact absurd hck.symm hk
        · exact Or.inl (List.mem_map.mpr ⟨c', hc'', hck⟩)
      · right
        rw [mapGet_mapSet_ne (fun he => hk he.symm)]
        exact h

theorem mapGet_objAssign_of_not_mem {β : Type} {k : String} {src : List (String × β)}
    (h : ∀ p ∈ src, p.1 ≠ k) :
    ∀ target : List (String × β), mapGet k (objAssign target src) = mapGet k target := by
  induction src with
  | nil => intro target; rfl
  | cons p src' ih =>
    intro target
    have hstep : mapGet k (objAssign target (p :: src')) =
        mapGet k (objAssign (mapSet p.1 p.2 target) src') := rfl
    rw [hstep, ih fun q hq => h q (List.mem_cons_of_mem _ hq),
      mapGet_mapSet_ne (h p (List.mem_cons_self _ _))]

/-- Claim C4: every comment flagged `isTopComments` is stored with score
exactly 101 in the batch's score map regardless of the scoring response
(whose keys address only regular comments); consequently its merged
comment carries score 101, and in any merge output every score-101 comment
is ranked strictly above every comment with score at most 100. -/
theorem pinned_items_score_101_and_dominate
    (comments : List Comment) (aiResponse : List (String × CommentScore))
    (hkeys : (comments.map fun c => toString c.id).Nodup)
    (hdom : ∀ p ∈ aiResponse, p.1 ∈ (regularComments comments).map fun c => toString c.id)
    (f : AnalysisFile) (hf : f.analysisResults = buildAnalysisResults comments aiResponse)
    (c : Comment) (hc : c ∈ comments) (hpin : c.isTopComments = some true)
    (hcf : c ∈ f.inputComments)
    (files : List (Option AnalysisFile)) (out : MergeOutput)
    (hmerge : mergeAndSortResults files = some out) :
    mapGet (toString c.id) (buildAnalysisResults comments aiResponse) = some ⟨101⟩ ∧
    mkMergedComment c ⟨101⟩ f.timestamp ∈ mergeCommentsWithScores f ∧
    ∀ (i j : Fin out.comments.length),
      (out.comments.get i).finalScore = 101 →
      (out.comments.get j).finalScore ≤ 100 → (i : Nat) < (j : Nat) := by
  have hctop : c ∈ topComments comments :=
    List.mem_filter.mpr ⟨hc, by simp [hpin]⟩
  have hpinned : mapGet (toString c.id) (pinnedScores comments) = some ⟨101⟩ := by
    apply mapGet_foldl_mapSet_const
    exact Or.inl (List.mem_map.mpr ⟨c, hctop, rfl⟩)
  have hmain : mapGet (toString c.id) (buildAnalysisResults comments aiResponse) =
      some ⟨101⟩ := by
    unfold buildAnalysisResults
    by_cases hreg : (regularComments comments).length = 0
    · rw [if_pos hreg]
      exact hpinned
    · rw [if_neg hreg]
      have hnk : ∀ p ∈ aiResponse, p.1 ≠ toString c.id := by
        intro p hp hpk
        rcases List.mem_map.mp (hdom p hp) with ⟨c', hc', hck⟩
        have hc'mem : c' ∈ comments := List.mem_of_mem_filter hc'
        have hceq : c' = c :=
          List.inj_on_of_nodup_map hkeys hc'mem hc (by rw [hck, hpk])
        have hcf' : c' ∈ comments.filter (fun comment => !(comment.isTopComments.getD false)) :=
          hc'
        have hc'reg : (!(c'.isTopComments.getD false)) = true := (List.mem_filter.mp hcf').2
        rw [hceq, hpin] at hc'reg
        simp at hc'reg
      rw [mapGet_objAssign_of_not_mem hnk]
      exact hpinned
  refine ⟨hmain, ?_, ?_⟩
  · apply List.mem_filterMap.mpr
    refine ⟨c, hcf, ?_⟩
    rw [hf, hmain]
    rfl
  · have hsorted : out.comments.Pairwise scoreGE := by
      rw [mergeAndSortResults_comments hmerge]
      exact sortCommentsByScore_sorted _
    intro i j h101 h100
    by_contra hij
    push_neg at hij
    rcases lt_or_eq_of_le hij with hlt | heq
    · have hge := List.pairwise_iff_get.mp hsorted j i hlt
      have hge' : (out.comments.get i).finalScore ≤ (out.comments.get j).finalScore := hge
      rw [h101] at hge'
      exact absurd (le_trans hge' h100) (by norm_num)
    · have hgetEq : out.comments.get j = out.comments.get i := by
        congr 1
        exact Fin.ext heq
      rw [hgetEq, h101] at h100
      exact absurd h100 (by norm_num)

/-- A pinned comment for the concrete C4 witness. -/
def wPinned : Comment :=
  { id := 11, t := "1", c := "P", l := "0", r := "0", isTopComments := some true }

/-- A regular comment submitted alongside `wPinned`. -/
def wRegular : Comment :=
  { id := 12, t := "1", c := "Q", l := "0", r := "0", isTopComments := none }

/-- The scorer's response for the regular comment of the C4 witness batch. -/
def wAiResponse : List (String × CommentScore) := [("12", ⟨50⟩)]

/-- The stored batch of the C4 witness. -/
def wPinFile : AnalysisFile :=
  { timestamp := "tP"
    inputComments := [wPinned, wRegular]
    systemMessage := "m"
    bestCommentsCount := 1
    analysisResults := buildAnalysisResults [wPinned, wRegular] wAiResponse }

/-- The merge output over the C4 witness batch. -/
def wPinOut : MergeOutput := (mergeAndSortResults [some wPinFile]).getD default

/-- Witness for claim C4 at a concrete batch with one pinned and one
regular comment: the pinned comment is stored at score 101 and its merged
comment is emitted. -/
theorem pinned_items_score_101_and_dominate_witness :
    mapGet "11" (buildAnalysisResults [wPinned, wRegular] wAiResponse) = some ⟨101⟩ ∧
    mkMergedComment wPinned ⟨101⟩ "tP" ∈ mergeCommentsWithScores wPinFile := by
  have h := pinned_items_score_101_and_dominate [wPinned, wRegular] wAiResponse
    (by decide) (by decide) wPinFile rfl wPinned (by decide) (by decide) (by decide)
    [some wPinFile] wPinOut (by decide)
  exact ⟨h.1, h.2.1⟩

/-! ### Claim C6: the /clear-analysis-data endpoint

The endpoint deletes every file of the analysis directory, then every file
of the merged-results directory, inside one try block.  Each per-store
count is assigned only after that store's loop completes; the catch branch
answers HTTP 500 with an error message and no counts.  An `unlinkSync`
failure is modelled by the `fails` predicate on filenames. -/

/-- The two directories owned by the endpoint. -/
structure StoresState where
  analysisFiles : List String
  mergedFiles : List String
deriving DecidableEq, Repr

/-- The endpoint's JSON response: either the success payload with the two
cleared-file counts, or the 500 error payload carrying only details. -/
inductive ClearResponse where
  | ok (clearedAnalysisFiles clearedMergedFiles : Nat)
  | err (details : String)
deriving DecidableEq, Repr

/-- One `for (const file of files) fs.unlinkSync(...)` loop: returns the
deleted files, the files still on disk, and the error if one was thrown. -/
def deleteLoop (fails : String → Bool) : List String → List String × List String × Option String
  | [] => ([], [], none)
  | f :: rest =>
    if fails f then ([], f :: rest, some f)
    else
      let res := deleteLoop fails rest
      (f :: res.1, res.2.1, res.2.2)

/-- The /clear-analysis-data route: clear the analysis store, then the
merged store; on success answer with both directory listing lengths; on a
thrown error answer with the error only. -/
def clearAnalysisData (st : StoresState) (fails : String → Bool) :
    ClearResponse × StoresState :=
  let r1 := deleteLoop fails st.analysisFiles
  match r1.2.2 with
  | some msg => (ClearResponse.err msg, ⟨r1.2.1, st.mergedFiles⟩)
  | none =>
    let r2 := deleteLoop fails st.mergedFiles
    match r2.2.2 with
    | some msg => (ClearResponse.err msg, ⟨[], r2.2.1⟩)
    | none => (ClearResponse.ok st.analysisFiles.length st.mergedFiles.length, ⟨[], []⟩)

theorem deleteLoop_none {fails : String → Bool} :
    ∀ {files : List String}, (deleteLoop fails files).2.2 = none →
      (deleteLoop fails files).2.1 = [] := by
  intro files
  induction files with
  | nil => intro _; rfl
  | cons f rest ih =>
    intro h
    by_cases hf : fails f
    · simp [deleteLoop, hf] at h
    · simp only [deleteLoop, hf, Bool.false_eq_true, if_false] at h ⊢
      exact ih h

/-- The C6 store: two analysis files and one merged file. -/
def c6State : StoresState := ⟨["a", "b"], ["m"]⟩

/-- Deletion fails on the second analysis file. -/
def c6Fails : String → Bool := fun s => s == "b"

/-- Claim C6, counterexample: when deletion fails partway (after removing
"a", failing on "b"), one analysis file was in fact removed and no merged
file was, yet the response is the error payload, which carries no
per-store removal counts (in particular not the true counts 1 and 0). -/
theorem clear_partial_failure_counterexample :
    (clearAnalysisData c6State c6Fails).2.analysisFiles = ["b"] ∧
    (clearAnalysisData c6State c6Fails).2.mergedFiles = ["m"] ∧
    (clearAnalysisData c6State c6Fails).1 = ClearResponse.err "b" ∧
    (clearAnalysisData c6State c6Fails).1 ≠ ClearResponse.ok 1 0 := by decide

/-- Claim C6, amended: per-store counts are reported only when both stores
clear completely — in which case `clearedAnalysisFiles` and
`clearedMergedFiles` are exactly the two directory sizes, reported
independently — and any partial failure yields the error response, never a
success payload. -/
theorem clear_reports_counts_only_on_success
    (st : StoresState) (fails : String → Bool) (r : ClearResponse) (st' : StoresState)
    (h : clearAnalysisData st fails = (r, st')) :
    (∀ n₁ n₂, r = ClearResponse.ok n₁ n₂ →
      n₁ = st.analysisFiles.length ∧ n₂ = st.mergedFiles.length ∧
      st'.analysisFiles = [] ∧ st'.mergedFiles = []) ∧
    ((st'.analysisFiles ≠ [] ∨ st'.mergedFiles ≠ []) → ∃ d, r = ClearResponse.err d) := by
  simp only [clearAnalysisData] at h
  cases h1 : (deleteLoop fails st.analysisFiles).2.2 with
  | some msg =>
    rw [h1] at h
    rw [Prod.mk.injEq] at h
    obtain ⟨hr, hs⟩ := h
    subst hr
    subst hs
    constructor
    · intro n₁ n₂ hok
      exact ClearResponse.noConfusion hok
    · intro _
      exact ⟨msg, rfl⟩
  | none =>
    rw [h1] at h
    cases h2 : (deleteLoop fails st.mergedFiles).2.2 with
    | some msg =>
      rw [h2] at h
      rw [Prod.mk.injEq] at h
      obtain ⟨hr, hs⟩ := h
      subst hr
      subst hs
      constructor
      · intro n₁ n₂ hok
        exact ClearResponse.noConfusion hok
      · intro _
        exact ⟨msg, rfl⟩
    | none =>
      rw [h2] at h
      rw [Prod.mk.injEq] at h
      obtain ⟨hr, hs⟩ := h
      subst hr
      subst hs
      constructor
      · intro n₁ n₂ hok
        injection hok with hn₁ hn₂
        exact ⟨hn₁.symm, hn₂.symm, rfl, rfl⟩
      · intro hne
        rcases hne with hne | hne
        · exact absurd rfl hne
        · exact absurd rfl hne

/-- Witness for the amended claim C6 at a run with no failures: both
counts are reported and both stores end empty. -/
theorem clear_reports_counts_only_on_success_witness :
    (2 : Nat) = c6State.analysisFiles.length ∧ (1 : Nat) = c6State.mergedFiles.length := by
  have h := clear_reports_counts_only_on_success c6State (fun _ => false)
    (ClearResponse.ok 2 1) ⟨[], []⟩ (by decide)
  have h' := h.1 2 1 rfl
  exact ⟨h'.1, h'.2.1⟩

/-! ### Claim C10: validation of the submitted comments array

The request body is JSON; numeric body fields (ids, bestCommentsCount) are
integers in every observed use and are modelled as `Int`.  The
`validateComments` guard of src/index.ts rejects a non-array, an empty
array, an array of more than 50 items, and any item missing one of the
typed fields, all before any scoring call or persistence. -/

/-- A JSON value as delivered by the body parser. -/
inductive Js where
  | null
  | bool (b : Bool)
  | num (n : Int)
  | str (s : String)
  | arr (elems : List Js)
  | obj (fields : List (String × Js))

/-- Property access `v[key]` on a parsed JSON value: a field of an object,
absent (`undefined`) otherwise. -/
def jsGet (v : Js) (k : String) : Option Js :=
  match v with
  | Js.obj fields => mapGet k fields
  | _ => none

/-- The per-item shape check of `validateComments`: an object with numeric
`id`, string `t`, `c`, `l`, `r`, and an absent-or-boolean `isTopComments`. -/
def isValidComment (c : Js) : Bool :=
  match c with
  | Js.obj fields =>
      (match mapGet "id" fields with | some (Js.num _) => true | _ => false) &&
      (match mapGet "t" fields with | some (Js.str _) => true | _ => false) &&
      (match mapGet "c" fields with | some (Js.str _) => true | _ => false) &&
      (match mapGet "l" fields with | some (Js.str _) => true | _ => false) &&
      (match mapGet "r" fields with | some (Js.str _) => true | _ => false) &&
      (match mapGet "isTopComments" fields with
        | none => true
        | some (Js.bool _) => true
        | _ => false)
  | _ => false

/-- `validateComments` of src/index.ts: an array of 1 to 50 items, each of
valid shape.  A missing or non-array `comments` field fails the
`Array.isArray` guard. -/
def validateComments (comments : Option Js) : Bool :=
  match comments with
  | some (Js.arr cs) =>
      if cs.length = 0 ∨ cs.length > 50 then false
      else cs.all isValidComment
  | _ => false

/-- Conversion of a shape-valid JSON comment to the typed `Comment` (the
TypeScript code uses the validated value directly via the type guard). -/
def toComment (c : Js) : Option Comment :=
  match c with
  | Js.obj fields =>
    match mapGet "id" fields, mapGet "t" fields, mapGet "c" fields,
        mapGet "l" fields, mapGet "r" fields, mapGet "isTopComments" fields with
    | some (Js.num i), some (Js.str t), some (Js.str cc), some (Js.str l),
        some (Js.str r), ftop =>
        match ftop with
        | none => some ⟨i, t, cc, l, r, none⟩
        | some (Js.bool b) => some ⟨i, t, cc, l, r, some b⟩
        | _ => none
    | _, _, _, _, _, _ => none
  | _ => none

/-- The observable outcome of one /analyze-comments request: the HTTP
status, whether the external scoring call was made, and the batch record
appended to the store (if any). -/
structure AnalyzeOutcome where
  status : Nat
  scoringCalled : Bool
  stored : Option AnalysisFile
deriving DecidableEq, Repr

/-- The /analyze-comments route of src/index.ts up to persistence:
validate the comments array, the system message (a nonempty string — the
empty string is falsy under `!systemMessage`), and `bestCommentsCount`
(a number that is at least 1); then score (pinned items at 101, regular
items via the external response) and append the batch record. -/
def analyzeComments (body : Js) (aiResponse : List (String × CommentScore))
    (now : String) : AnalyzeOutcome :=
  let comments := jsGet body "comments"
  if !(validateComments comments) then ⟨400, false, none⟩
  else
    match jsGet body "systemMessage" with
    | some (Js.str sysMsg) =>
      if sysMsg = "" then ⟨400, false, none⟩
      else
        match jsGet body "bestCommentsCount" with
        | some (Js.num bcc) =>
          if bcc < 1 then ⟨400, false, none⟩
          else
            match comments with
            | some (Js.arr cs) =>
              let typed := cs.filterMap toComment
              ⟨200, !((regularComments typed).length = 0),
                some { timestamp := now
                       inputComments := typed
                       systemMessage := sysMsg
                       bestCommentsCount := bcc
                       analysisResults := buildAnalysisResults typed aiResponse }⟩
            | _ => ⟨400, false, none⟩
        | _ => ⟨400, false, none⟩
    | _ => ⟨400, false, none⟩

/-- Claim C10: a submission whose comments array is empty fails
`validateComments` (the at-least-one-item lower bound, not only the
50-item cap) and is answered 400 with no scoring call and nothing
persisted. -/
theorem empty_comments_rejected (body : Js) (aiResponse : List (String × CommentScore))
    (now : String) (h : jsGet body "comments" = some (Js.arr [])) :
    validateComments (jsGet body "comments") = false ∧
    analyzeComments body aiResponse now = ⟨400, false, none⟩ := by
  have hv : validateComments (some (Js.arr ([] : List Js))) = false := rfl
  constructor
  · rw [h]
    exact hv
  · unfold analyzeComments
    rw [h]
    simp [hv]

/-- The body of the C10 witness request: an empty comments array next to
otherwise well-formed fields. -/
def c10Body : Js :=
  Js.obj [("comments", Js.arr []), ("systemMessage", Js.str "sys"),
    ("bestCommentsCount", Js.num 3)]

/-- Witness for claim C10 at the concrete empty-array body. -/
theorem empty_comments_rejected_witness :
    validateComments (jsGet c10Body "comments") = false ∧
    analyzeComments c10Body [] "t" = ⟨400, false, none⟩ :=
  empty_comments_rejected c10Body [] "t" rfl
